import Mathlib

/-!
Verification of the fuzzy-c Mamdani-style fuzzy-logic engine.

Shallow embedding of the C sources: membership-function evaluation
(membership_functions.c), fuzzification (classifier.c), FuzzySet lifecycle and
normalization (class.c / classifier.c), rule inference (inference.c), and
centroid defuzzification (defuzzifier.c).  C doubles are modelled as rationals;
the mutable heap of FuzzySets shared by the rules is modelled as an explicit
environment mapping set identifiers to degree lists.
-/

namespace FuzzyC

/-- The `MembershipFunctionType` enum from membership_function.h:
`typedef enum { TRIANGULAR, TRAPEZOIDAL, RECTANGULAR } MembershipFunctionType;` -/
inductive MembershipFunctionType where
  | TRIANGULAR
  | TRAPEZOIDAL
  | RECTANGULAR
deriving DecidableEq, Repr

/-- The `MembershipFunction` struct: four double parameters and a type tag. -/
structure MembershipFunction where
  a : ℚ
  b : ℚ
  c : ℚ
  d : ℚ
  type : MembershipFunctionType
deriving DecidableEq, Repr

/-- `triangularMembershipFunction` from membership_functions.c. -/
def triangularMembershipFunction (x a b c : ℚ) : ℚ :=
  if x < a ∨ x > c then 0
  else if x ≤ b then
    if b - a = 0 then 1 else (x - a) / (b - a)
  else (c - x) / (c - b)

/-- `trapezoidalMembershipFunction` from membership_functions.c. -/
def trapezoidalMembershipFunction (x a b c d : ℚ) : ℚ :=
  if x ≤ a ∨ x ≥ d then 0
  else if x ≤ b then (x - a) / (b - a)
  else if x ≥ c then (d - x) / (d - c)
  else 1

/-- `rectangularMembershipFunction` from membership_functions.c. -/
def rectangularMembershipFunction (x a b : ℚ) : ℚ :=
  if x < a ∨ x ≥ b then 0 else 1

/-- `membershipFunction` from membership_functions.c: dispatch on the type tag.
(The C `default:` branch is unreachable because the enum has exactly the three
values modelled by `MembershipFunctionType`.) -/
def membershipFunction (x : ℚ) (mf : MembershipFunction) : ℚ :=
  match mf.type with
  | .TRIANGULAR => triangularMembershipFunction x mf.a mf.b mf.c
  | .TRAPEZOIDAL => trapezoidalMembershipFunction x mf.a mf.b mf.c mf.d
  | .RECTANGULAR => rectangularMembershipFunction x mf.a mf.b

/-- `fuzzyClassifier` from classifier.c: evaluate every membership function of
the set at `x` and store the degrees index-by-index. -/
def fuzzyClassifier (x : ℚ) (inputs : List MembershipFunction) : List ℚ :=
  inputs.map (membershipFunction x)

/-- The input shapes of end-to-end scenario A (example/minimal.c,
`InputMembershipFunctions`). -/
def scenarioAInputs : List MembershipFunction :=
  [⟨0, 0, 15, 40, .TRAPEZOIDAL⟩,
   ⟨15, 40, 60, 80, .TRAPEZOIDAL⟩,
   ⟨60, 80, 100, 100, .TRAPEZOIDAL⟩]

/-- The `FuzzySet` struct from class.h: a degree buffer, a shape buffer and a
length. -/
structure FuzzySet where
  membershipValues : List ℚ
  membershipFunctions : List MembershipFunction
  length : Nat
deriving DecidableEq, Repr

/-- `FuzzySetInit` from class.c.  The C code sets the length, `malloc`s the
degree buffer WITHOUT writing to it, and copies the first `length` membership
functions.  The indeterminate contents the allocator happens to return are
modelled by the explicit argument `alloc`. -/
def FuzzySetInit (membershipFunctions : List MembershipFunction) (length : Nat)
    (alloc : List ℚ) : FuzzySet :=
  { membershipValues := alloc
    membershipFunctions := membershipFunctions.take length
    length := length }

/-- The `FuzzyClass` struct from classifier.h: a degree buffer and a length. -/
structure FuzzyClass where
  memberships : List ℚ
  length : Nat
deriving DecidableEq, Repr

/-- `FuzzyClassInit` from classifier.c.  The C code `malloc`s the degree buffer
WITHOUT writing to it and sets the length; `alloc` models the indeterminate
contents returned by the allocator. -/
def FuzzyClassInit (length : Nat) (alloc : List ℚ) : FuzzyClass :=
  { memberships := alloc
    length := length }

/-- `normalizeClass` from class.c / classifier.c: if the degree sum is zero,
overwrite every degree with 0; otherwise divide every degree by the sum. -/
def normalizeClass (ms : List ℚ) : List ℚ :=
  if ms.sum = 0 then ms.map (fun _ => 0) else ms.map (fun m => m / ms.sum)

/-- `calculateTriangularCentroid` from defuzzifier.c. -/
def calculateTriangularCentroid (f : MembershipFunction) (membership : ℚ) : ℚ :=
  if membership = 0 then 0
  else if f.a = f.b then f.b
  else if f.c = f.b then f.b
  else (f.a + f.b + f.c) / 3

/-- `calculateTrapezoidalCentroid` from defuzzifier.c. -/
def calculateTrapezoidalCentroid (f : MembershipFunction) (membership : ℚ) : ℚ :=
  if membership = 0 then 0
  else if f.a = f.b ∧ f.c = f.d then (f.b + f.c) / 2
  else (f.a + f.b + f.c + f.d) / 4

/-- `calculateRectangularCentroid` from defuzzifier.c. -/
def calculateRectangularCentroid (f : MembershipFunction) (membership : ℚ) : ℚ :=
  if membership = 0 then 0 else (f.a + f.b) / 2

/-- `calculateCentroid` from defuzzifier.c: dispatch on the type tag.  (The C
`default:` branch is unreachable: the enum has exactly three values.) -/
def calculateCentroid (f : MembershipFunction) (membership : ℚ) : ℚ :=
  match f.type with
  | .TRIANGULAR => calculateTriangularCentroid f membership
  | .TRAPEZOIDAL => calculateTrapezoidalCentroid f membership
  | .RECTANGULAR => calculateRectangularCentroid f membership

/-- A placeholder shape used for an index for which no shape was supplied; the
C code never reaches it on well-formed inputs (equal-length buffers). -/
def defaultMF : MembershipFunction := ⟨0, 0, 0, 0, .TRIANGULAR⟩

/-- The loop body of `defuzzification` (defuzzifier.c): the accumulated
`sum += calculateCentroid(mf_i, m_i) * m_i` over the degree list, pairing the
i-th degree with the i-th membership function. -/
def weightedCentroidSum : List ℚ → List MembershipFunction → ℚ
  | [], _ => 0
  | m :: ms, [] => calculateCentroid defaultMF m * m + weightedCentroidSum ms []
  | m :: ms, mf :: mfs => calculateCentroid mf m * m + weightedCentroidSum ms mfs

/-- `defuzzification` from defuzzifier.c: weighted average of the per-shape
centroids, with the sum of degrees as the weight total; returns 0 when the
degrees sum to zero. -/
def defuzzification (ms : List ℚ) (mfs : List MembershipFunction) : ℚ :=
  if ms.sum = 0 then 0 else weightedCentroidSum ms mfs / ms.sum

/-- The mutable heap of degree buffers: the rules of inference.c hold pointers
to `FuzzySet`s and mutate their `membershipValues` in place.  Pointers are
modelled as natural-number identifiers, the heap as a map from identifier to
the degree list currently stored in that set. -/
def Env : Type := Nat → List ℚ

/-- The `Fuzzyfuzzy_operator_e` enum from inference.h:
`typedef enum { FUZZY_ANY_OF, FUZZY_ALL_OF } Fuzzyfuzzy_operator_e;` -/
inductive FuzzyOperator where
  | FUZZY_ANY_OF
  | FUZZY_ALL_OF
deriving DecidableEq, Repr

/-- The `FuzzyVariable_t` struct from inference.h: a pointer to a FuzzySet
(modelled by the identifier `var`), an index into its degree buffer, and the
negation flag set by the `NOT()` macro. -/
structure FuzzyVariable where
  var : Nat
  value : Nat
  invert : Bool
deriving DecidableEq, Repr

/-- The `FuzzyAntecedent_t` struct from inference.h: an operator and the
variable references it combines. -/
structure FuzzyAntecedent where
  fuzzy_operator : FuzzyOperator
  vars : List FuzzyVariable
deriving DecidableEq, Repr

/-- The `FuzzyRule_t` struct from inference.h: antecedent groups plus one
consequent reference. -/
structure FuzzyRule where
  antecedent : List FuzzyAntecedent
  consequent : FuzzyVariable
deriving DecidableEq, Repr

/-- Reading `variable->membershipValues[value]` (inference.c); reads are only
performed in-bounds by well-formed rule sets, out of range defaults to 0. -/
def readDegree (env : Env) (s i : Nat) : ℚ :=
  (env s).getD i 0

/-- Writing `variable->membershipValues[value] = v` (inference.c). -/
def writeDegree (env : Env) (s i : Nat) (v : ℚ) : Env :=
  fun t => if t = s then (env s).set i v else env t

/-- Replacing a whole degree buffer (used to model `normalizeClass` acting on
a set through a pointer). -/
def writeSet (env : Env) (s : Nat) (ms : List ℚ) : Env :=
  fun t => if t = s then ms else env t

/-- The per-reference `inputMembership` computation of inference.c: the
degree of the referenced slot, complemented when the variable is inverted. -/
def inputMembership (env : Env) (v : FuzzyVariable) : ℚ :=
  if v.invert then 1 - readDegree env v.var v.value
  else readDegree env v.var v.value

/-- The per-antecedent-group loop of inference.c: `FUZZY_ANY_OF` folds the
references with `fmax` starting from 0.0, `FUZZY_ALL_OF` folds them with
`fmin` starting from 1.0. -/
def groupMembership (env : Env) (a : FuzzyAntecedent) : ℚ :=
  match a.fuzzy_operator with
  | .FUZZY_ANY_OF => a.vars.foldl (fun m v => max m (inputMembership env v)) 0
  | .FUZZY_ALL_OF => a.vars.foldl (fun m v => min m (inputMembership env v)) 1

/-- The per-rule loop of inference.c: `membership` starts at 1.0 and each
antecedent group's result is combined into it with `fmin`. -/
def ruleMembership (env : Env) (r : FuzzyRule) : ℚ :=
  r.antecedent.foldl (fun m a => min m (groupMembership env a)) 1

/-- The first loop of `fuzzyInference`: every rule's consequent slot is reset
to 0 before any rule is evaluated. -/
def resetPhase (rules : List FuzzyRule) (env : Env) : Env :=
  rules.foldl (fun e r => writeDegree e r.consequent.var r.consequent.value 0) env

/-- The main loop of `fuzzyInference`: for each rule in order, compute its
firing strength from the CURRENT heap and `fmax`-aggregate it into the
consequent slot. -/
def aggregatePhase (rules : List FuzzyRule) (env : Env) : Env :=
  rules.foldl (fun e r =>
    writeDegree e r.consequent.var r.consequent.value
      (max (readDegree e r.consequent.var r.consequent.value) (ruleMembership e r))) env

/-- The final loop of `fuzzyInference`: `normalizeClass` is applied to every
rule's consequent set, in rule order. -/
def normalizePhase (rules : List FuzzyRule) (env : Env) : Env :=
  rules.foldl (fun e r => writeSet e r.consequent.var (normalizeClass (e r.consequent.var))) env

/-- `fuzzyInference` from inference.c: reset all consequent slots, aggregate
every rule's firing strength with `fmax`, then normalize every consequent
set. -/
def fuzzyInference (rules : List FuzzyRule) (env : Env) : Env :=
  normalizePhase rules (aggregatePhase rules (resetPhase rules env))

/-- Whether some antecedent of the rule references set `s`. -/
def referencesSet (r : FuzzyRule) (s : Nat) : Bool :=
  r.antecedent.any (fun a => a.vars.any (fun v => v.var == s))

/-- Spec formulation (§4.4): the representative centroid point of a shape
alone, stated without the zero-membership short-circuit of the C code;
compared against `calculateCentroid` in the C6 refinement theorem. -/
def specRepresentativePoint (f : MembershipFunction) : ℚ :=
  match f.type with
  | .TRIANGULAR =>
      if f.a = f.b ∨ f.b = f.c then f.b else (f.a + f.b + f.c) / 3
  | .TRAPEZOIDAL =>
      if f.a = f.b ∧ f.c = f.d then (f.b + f.c) / 2 else (f.a + f.b + f.c + f.d) / 4
  | .RECTANGULAR => (f.a + f.b) / 2

/-- Spec formulation (§4.4): `Σ(c_i * m_i)` over the representative points,
with every zero-degree term contributing `c_i * 0 = 0`. -/
def specWeightedSum : List ℚ → List MembershipFunction → ℚ
  | [], _ => 0
  | m :: ms, [] => specRepresentativePoint defaultMF * m + specWeightedSum ms []
  | m :: ms, mf :: mfs => specRepresentativePoint mf * m + specWeightedSum ms mfs

/-- Spec formulation (§4.3): fold the group's references with `min` (AllOf) or
`max` (AnyOf) over the references' effective degrees; compared against
`groupMembership` in the C8 theorem. -/
def specGroupMembership (env : Env) (a : FuzzyAntecedent) : ℚ :=
  match a.fuzzy_operator with
  | .FUZZY_ANY_OF => (a.vars.map (inputMembership env)).foldl max 0
  | .FUZZY_ALL_OF => (a.vars.map (inputMembership env)).foldl min 1

/-- Spec formulation (§4.3): combine the groups' results across the rule with
`min` (rule-level AND); compared against `ruleMembership` in the C8 theorem. -/
def specFiringStrength (env : Env) (r : FuzzyRule) : ℚ :=
  (r.antecedent.map (specGroupMembership env)).foldl min 1

/-- All degrees stored in the heap lie in `[0,1]`. -/
def envInRange (env : Env) : Prop :=
  ∀ s, ∀ v ∈ env s, 0 ≤ v ∧ v ≤ 1

/-- Test heap: set 0 is an input set with degrees `[2/5, 7/10]`; set 1 is an
output set with degrees `[0, 0]`. -/
def envAB : Env := fun s => if s = 0 then [2/5, 7/10] else [0, 0]

/-- A rule reading input slot (0,0) (degree 2/5 in `envAB`) into output slot
(1,0). -/
def ruleA : FuzzyRule := ⟨[⟨.FUZZY_ALL_OF, [⟨0, 0, false⟩]⟩], ⟨1, 0, false⟩⟩

/-- A rule reading input slot (0,1) (degree 7/10 in `envAB`) into output slot
(1,0). -/
def ruleB : FuzzyRule := ⟨[⟨.FUZZY_ALL_OF, [⟨0, 1, false⟩]⟩], ⟨1, 0, false⟩⟩

/-- Test heap holding the degrees `[0.2, 0.8, 0.5]` in every set. -/
def envThree : Env := fun _ => [1/5, 4/5, 1/2]

/-- An `ALL_OF` antecedent group over the three slots of set 0. -/
def groupAll : FuzzyAntecedent :=
  ⟨.FUZZY_ALL_OF, [⟨0, 0, false⟩, ⟨0, 1, false⟩, ⟨0, 2, false⟩]⟩

/-- An `ANY_OF` antecedent group over the three slots of set 0. -/
def groupAny : FuzzyAntecedent :=
  ⟨.FUZZY_ANY_OF, [⟨0, 0, false⟩, ⟨0, 1, false⟩, ⟨0, 2, false⟩]⟩

/-- Test heap holding the degree `0.3` in every set. -/
def envNeg : Env := fun _ => [3/10]

lemma sum_map_zero (ms : List ℚ) : (ms.map (fun _ => (0 : ℚ))).sum = 0 := by
  induction ms with
  | nil => simp
  | cons m ms ih => simp [ih]

lemma sum_map_div (ms : List ℚ) (s : ℚ) :
    (ms.map (fun m => m / s)).sum = ms.sum / s := by
  induction ms with
  | nil => simp
  | cons m ms ih => simp [ih, add_div]

lemma getD_set_self (l : List ℚ) (i : Nat) (v : ℚ) (h : i < l.length) :
    (l.set i v).getD i 0 = v := by
  induction l generalizing i with
  | nil => simp at h
  | cons a l ih =>
    cases i with
    | zero => simp
    | succ n => simpa using ih n (by simpa using h)

/-- Claim C1's counterexample: the trapezoid support is strictly open at `a`
(`x <= a` returns 0), so with `Low = Trapezoidal(0,0,15,40)` the crisp value
`x = 0` does NOT classify to degree vector `[1,0,0]`. -/
theorem claim_C1_counterexample : fuzzyClassifier 0 scenarioAInputs ≠ [1, 0, 0] := by
  norm_num [fuzzyClassifier, scenarioAInputs, membershipFunction,
    trapezoidalMembershipFunction]

/-- Claim C1 (amended): classifying the crisp value `x = 0` against the
scenario-A input shapes stores the degree vector `[0,0,0]`: the trapezoidal
support is strictly open at both ends, so `x = 0 <= a = 0` yields degree 0 for
`Low` as well. -/
theorem claim_C1 : fuzzyClassifier 0 scenarioAInputs = [0, 0, 0] := by
  norm_num [fuzzyClassifier, scenarioAInputs, membershipFunction,
    trapezoidalMembershipFunction]

/-- Claim C2's counterexample: the construction interface `malloc`s the degree
buffer and never writes to it, so whatever the allocator returns (here the
stale value 1/2) remains; the degrees are NOT zero-initialized. -/
theorem claim_C2_counterexample :
    (FuzzySetInit [defaultMF] 1 [1/2]).membershipValues = [1/2] ∧
    (FuzzyClassInit 1 [1/2]).memberships = [1/2] ∧ ((1 : ℚ)/2 ≠ 0) :=
  ⟨rfl, rfl, by norm_num⟩

/-- Claim C2 (amended): `FuzzySetInit` sets the length, copies the first `n`
shape tuples, and leaves the degree buffer exactly as allocated
(indeterminate contents, not zero-initialized); likewise `FuzzyClassInit`. -/
theorem claim_C2 (mfs : List MembershipFunction) (n : Nat) (alloc : List ℚ) :
    (FuzzySetInit mfs n alloc).membershipValues = alloc ∧
    (FuzzySetInit mfs n alloc).length = n ∧
    (FuzzySetInit mfs n alloc).membershipFunctions = mfs.take n ∧
    (FuzzyClassInit n alloc).memberships = alloc ∧
    (FuzzyClassInit n alloc).length = n :=
  ⟨rfl, rfl, rfl, rfl, rfl⟩

/-- Claim C3's counterexample: for `Triangular(0,2,2)` (so `b = c = 2`,
`a = 0 < b`) the input `x = 1 ≠ b` evaluates to `1/2`, not `0`: the left ramp
`(x-a)/(b-a)` still applies on `[a,b)`; the claim predicted 0 everywhere except
`x = b`. -/
theorem claim_C3_counterexample :
    (0 : ℚ) < 2 ∧ (1 : ℚ) ≠ 2 ∧
    membershipFunction 1 ⟨0, 2, 2, 0, .TRIANGULAR⟩ = 1/2 ∧ (1/2 : ℚ) ≠ 0 := by
  refine ⟨by norm_num, by norm_num, ?_, by norm_num⟩
  norm_num [membershipFunction, triangularMembershipFunction]

/-- Claim C3 (amended): for every Triangular shape with `b = c` and `a < b`,
evaluation returns 1 at `x = b`, the left ramp `(x-a)/(b-a)` on `[a,b)`, and 0
outside `[a,b]` (no division by zero occurs: the zero-denominator right-slope
branch is unreachable when `b = c`). -/
theorem claim_C3 (a b d x : ℚ) (hab : a < b) :
    membershipFunction b ⟨a, b, b, d, .TRIANGULAR⟩ = 1 ∧
    (a ≤ x → x < b → membershipFunction x ⟨a, b, b, d, .TRIANGULAR⟩ = (x - a) / (b - a)) ∧
    (x < a ∨ b < x → membershipFunction x ⟨a, b, b, d, .TRIANGULAR⟩ = 0) := by
  have hba : b - a ≠ 0 := sub_ne_zero.mpr (ne_of_gt hab)
  refine ⟨?_, fun hax hxb => ?_, fun h => ?_⟩
  · simp only [membershipFunction, triangularMembershipFunction]
    rw [if_neg (by push_neg; exact ⟨le_of_lt hab, le_refl b⟩), if_pos (le_refl b),
      if_neg hba]
    exact div_self hba
  · simp only [membershipFunction, triangularMembershipFunction]
    rw [if_neg (by push_neg; exact ⟨hax, le_of_lt hxb⟩), if_pos (le_of_lt hxb),
      if_neg hba]
  · simp only [membershipFunction, triangularMembershipFunction]
    rw [if_pos h]

/-- Claim C3's witness: the amended statement evaluated at
`Triangular(0,2,2)`. -/
theorem claim_C3_witness :
    (0 : ℚ) < 2 ∧
    (membershipFunction 2 ⟨0, 2, 2, 0, .TRIANGULAR⟩ = 1 ∧
      ((0 : ℚ) ≤ 1 → (1 : ℚ) < 2 →
        membershipFunction 1 ⟨0, 2, 2, 0, .TRIANGULAR⟩ = (1 - 0) / (2 - 0)) ∧
      ((1 : ℚ) < 0 ∨ (2 : ℚ) < 1 → membershipFunction 1 ⟨0, 2, 2, 0, .TRIANGULAR⟩ = 0)) :=
  ⟨by norm_num, claim_C3 0 2 0 1 (by norm_num)⟩

/-- Claim C9: for every `Trapezoidal(a,b,c,d)` with `a < b <= c < d`,
evaluation returns 1 on all of `[b,c]` and returns 0 at `x = a` and at
`x = d` (support strictly open at both ends). -/
theorem claim_C9 (a b c d x : ℚ) (hab : a < b) (_hbc : b ≤ c) (hcd : c < d) :
    (b ≤ x → x ≤ c → membershipFunction x ⟨a, b, c, d, .TRAPEZOIDAL⟩ = 1) ∧
    membershipFunction a ⟨a, b, c, d, .TRAPEZOIDAL⟩ = 0 ∧
    membershipFunction d ⟨a, b, c, d, .TRAPEZOIDAL⟩ = 0 := by
  refine ⟨fun hbx hxc => ?_, ?_, ?_⟩
  · simp only [membershipFunction, trapezoidalMembershipFunction]
    rw [if_neg (by push_neg; exact ⟨lt_of_lt_of_le hab hbx, lt_of_le_of_lt hxc hcd⟩)]
    by_cases hxb : x ≤ b
    · rw [if_pos hxb, le_antisymm hxb hbx]
      exact div_self (sub_ne_zero.mpr (ne_of_gt hab))
    · rw [if_neg hxb]
      by_cases hcx : x ≥ c
      · rw [if_pos hcx, le_antisymm hxc hcx]
        exact div_self (sub_ne_zero.mpr (ne_of_gt hcd))
      · rw [if_neg hcx]
  · simp [membershipFunction, trapezoidalMembershipFunction]
  · simp [membershipFunction, trapezoidalMembershipFunction]

/-- Claim C9's witness: the statement evaluated at `Trapezoidal(0,1,2,3)` with
`x = 1`. -/
theorem claim_C9_witness :
    ((0 : ℚ) < 1 ∧ (1 : ℚ) ≤ 2 ∧ (2 : ℚ) < 3) ∧
    (((1 : ℚ) ≤ 1 → (1 : ℚ) ≤ 2 → membershipFunction 1 ⟨0, 1, 2, 3, .TRAPEZOIDAL⟩ = 1) ∧
      membershipFunction 0 ⟨0, 1, 2, 3, .TRAPEZOIDAL⟩ = 0 ∧
      membershipFunction 3 ⟨0, 1, 2, 3, .TRAPEZOIDAL⟩ = 0) :=
  ⟨⟨by norm_num, by norm_num, by norm_num⟩,
    claim_C9 0 1 2 3 1 (by norm_num) (by norm_num) (by norm_num)⟩

lemma calculateCentroid_zero (f : MembershipFunction) : calculateCentroid f 0 = 0 := by
  obtain ⟨a, b, c, d, t⟩ := f
  cases t <;>
    simp [calculateCentroid, calculateTriangularCentroid, calculateTrapezoidalCentroid,
      calculateRectangularCentroid]

lemma calculateCentroid_div (f : MembershipFunction) (m s : ℚ) (hs : s ≠ 0) :
    calculateCentroid f (m / s) = calculateCentroid f m := by
  by_cases hm : m = 0
  · subst hm; simp [calculateCentroid_zero]
  · have hms : m / s ≠ 0 := div_ne_zero hm hs
    obtain ⟨a, b, c, d, t⟩ := f
    cases t <;>
      simp [calculateCentroid, calculateTriangularCentroid, calculateTrapezoidalCentroid,
        calculateRectangularCentroid, hm, hms]

lemma weightedCentroidSum_map_div (ms : List ℚ) (s : ℚ) (hs : s ≠ 0) :
    ∀ mfs, weightedCentroidSum (ms.map (fun m => m / s)) mfs
      = weightedCentroidSum ms mfs / s := by
  induction ms with
  | nil => intro mfs; simp [weightedCentroidSum]
  | cons m ms ih =>
    intro mfs
    cases mfs with
    | nil =>
      show calculateCentroid defaultMF (m / s) * (m / s) + _ = _
      rw [calculateCentroid_div _ _ _ hs, ih]
      show _ = (calculateCentroid defaultMF m * m + weightedCentroidSum ms []) / s
      rw [add_div, mul_div_assoc]
    | cons mf mfs =>
      show calculateCentroid mf (m / s) * (m / s) + _ = _
      rw [calculateCentroid_div _ _ _ hs, ih]
      show _ = (calculateCentroid mf m * m + weightedCentroidSum ms mfs) / s
      rw [add_div, mul_div_assoc]

/-- Claim C5: defuzzifying after normalizing gives the same crisp output as
defuzzifying directly (scale invariance of the weighted-average centroid),
including the zero-sum case where both return the 0 fallback. -/
theorem claim_C5 (ms : List ℚ) (mfs : List MembershipFunction) :
    defuzzification (normalizeClass ms) mfs = defuzzification ms mfs := by
  by_cases h : ms.sum = 0
  · have h1 : normalizeClass ms = ms.map (fun _ => 0) := by simp [normalizeClass, h]
    simp [defuzzification, h1, sum_map_zero, h]
  · have h1 : normalizeClass ms = ms.map (fun m => m / ms.sum) := by
      simp [normalizeClass, h]
    have h2 : (normalizeClass ms).sum = 1 := by
      rw [h1, sum_map_div, div_self h]
    simp only [defuzzification, h2, h, if_false, one_ne_zero, if_neg]
    rw [h1, weightedCentroidSum_map_div _ _ h, div_one]

lemma centroid_mul (f : MembershipFunction) (m : ℚ) :
    calculateCentroid f m * m = specRepresentativePoint f * m := by
  by_cases hm : m = 0
  · subst hm; simp
  · have : calculateCentroid f m = specRepresentativePoint f := by
      obtain ⟨a, b, c, d, t⟩ := f
      cases t with
      | TRIANGULAR =>
        simp only [calculateCentroid, calculateTriangularCentroid,
          specRepresentativePoint]
        rw [if_neg hm]
        by_cases hab : a = b
        · rw [if_pos hab, if_pos (Or.inl hab)]
        · rw [if_neg hab]
          by_cases hcb : c = b
          · rw [if_pos hcb, if_pos (Or.inr hcb.symm)]
          · rw [if_neg hcb, if_neg (by push_neg; exact ⟨hab, fun h => hcb h.symm⟩)]
      | TRAPEZOIDAL =>
        simp only [calculateCentroid, calculateTrapezoidalCentroid,
          specRepresentativePoint, if_neg hm]
      | RECTANGULAR =>
        simp [calculateCentroid, calculateRectangularCentroid,
          specRepresentativePoint, hm]
    rw [this]

lemma weightedCentroidSum_eq_spec (ms : List ℚ) :
    ∀ mfs, weightedCentroidSum ms mfs = specWeightedSum ms mfs := by
  induction ms with
  | nil => intro mfs; simp [weightedCentroidSum, specWeightedSum]
  | cons m ms ih =>
    intro mfs
    cases mfs with
    | nil => simp [weightedCentroidSum, specWeightedSum, centroid_mul, ih]
    | cons mf mfs => simp [weightedCentroidSum, specWeightedSum, centroid_mul, ih]

/-- Claim C6: defuzzification computes `Σ(c_i * m_i) / Σ(m_i)` with the spec's
representative points (degenerate cases included), returns the defined
fallback 0 when `Σ(m_i) = 0`, and a zero-degree shape's centroid contributes
0. -/
theorem claim_C6 :
    (∀ (ms : List ℚ) (mfs : List MembershipFunction),
      defuzzification ms mfs =
        if ms.sum = 0 then 0 else specWeightedSum ms mfs / ms.sum) ∧
    (∀ f : MembershipFunction, calculateCentroid f 0 = 0) := by
  refine ⟨fun ms mfs => ?_, calculateCentroid_zero⟩
  simp only [defuzzification, weightedCentroidSum_eq_spec]

/-- Claim C8: the firing strength folds each group's references with `min`
(AllOf) or `max` (AnyOf) over effective degrees (`1 - d` for a negated
reference), combines the groups with `min`; `AllOf` over `[0.2, 0.8, 0.5]`
gives 0.2, `AnyOf` gives 0.8, and a negated reference with degree 0.3
contributes 0.7. -/
theorem claim_C8 :
    (∀ (env : Env) (r : FuzzyRule), ruleMembership env r = specFiringStrength env r) ∧
    (∀ (env : Env) (vs : List FuzzyVariable),
      groupMembership env ⟨.FUZZY_ALL_OF, vs⟩ = (vs.map (inputMembership env)).foldl min 1 ∧
      groupMembership env ⟨.FUZZY_ANY_OF, vs⟩ = (vs.map (inputMembership env)).foldl max 0) ∧
    (∀ (env : Env) (v : FuzzyVariable),
      inputMembership env v =
        if v.invert then 1 - readDegree env v.var v.value
        else readDegree env v.var v.value) ∧
    groupMembership envThree groupAll = 1/5 ∧
    groupMembership envThree groupAny = 4/5 ∧
    inputMembership envNeg ⟨0, 0, true⟩ = 7/10 := by
  refine ⟨fun env r => ?_, fun env vs => ?_, fun env v => rfl, ?_, ?_, ?_⟩
  · have hg : ∀ a, specGroupMembership env a = groupMembership env a := by
      intro a
      obtain ⟨op, vs⟩ := a
      cases op <;> simp [specGroupMembership, groupMembership, List.foldl_map]
    simp [specFiringStrength, ruleMembership, List.foldl_map, hg]
  · constructor <;> simp [groupMembership, List.foldl_map]
  · norm_num [groupMembership, envThree, groupAll, inputMembership, readDegree,
      min_def]
  · norm_num [groupMembership, envThree, groupAny, inputMembership, readDegree,
      max_def]
  · norm_num [inputMembership, envNeg, readDegree]

lemma foldl_congr_fn {α β : Type} (l : List α) (f g : β → α → β) (b : β)
    (h : ∀ acc, ∀ x ∈ l, f acc x = g acc x) : l.foldl f b = l.foldl g b := by
  induction l generalizing b with
  | nil => rfl
  | cons x l ih =>
    rw [List.foldl_cons, List.foldl_cons, h b x (List.mem_cons_self x l)]
    exact ih _ (fun acc y hy => h acc y (List.mem_cons_of_mem x hy))

lemma inputMembership_congr (e e' : Env) (cs : Nat) (v : FuzzyVariable)
    (he : ∀ t, t ≠ cs → e t = e' t) (hv : v.var ≠ cs) :
    inputMembership e v = inputMembership e' v := by
  simp [inputMembership, readDegree, he v.var hv]

lemma groupMembership_congr (e e' : Env) (cs : Nat) (a : FuzzyAntecedent)
    (he : ∀ t, t ≠ cs → e t = e' t) (ha : ∀ v ∈ a.vars, v.var ≠ cs) :
    groupMembership e a = groupMembership e' a := by
  obtain ⟨op, vs⟩ := a
  cases op <;>
    · simp only [groupMembership]
      exact foldl_congr_fn vs _ _ _ (fun acc v hv => by
        rw [inputMembership_congr e e' cs v he (ha v hv)])

lemma ruleMembership_congr (e e' : Env) (cs : Nat) (r : FuzzyRule)
    (he : ∀ t, t ≠ cs → e t = e' t) (hr : referencesSet r cs = false) :
    ruleMembership e r = ruleMembership e' r := by
  have hvars : ∀ a ∈ r.antecedent, ∀ v ∈ a.vars, v.var ≠ cs := by
    intro a ha v hv
    simp only [referencesSet, List.any_eq_false, Bool.not_eq_true, beq_eq_false_iff_ne,
      ne_eq] at hr
    exact hr a ha v hv
  simp only [ruleMembership]
  exact foldl_congr_fn _ _ _ _ (fun acc a ha => by
    rw [groupMembership_congr e e' cs a he (hvars a ha)])

lemma writeDegree_ne (e : Env) (s i : Nat) (v : ℚ) (t : Nat) (ht : t ≠ s) :
    writeDegree e s i v t = e t := by
  simp [writeDegree, ht]

lemma writeDegree_self (e : Env) (s i : Nat) (v : ℚ) :
    writeDegree e s i v s = (e s).set i v := by
  simp [writeDegree]

lemma readDegree_writeDegree (e : Env) (s i : Nat) (v : ℚ) (h : i < (e s).length) :
    readDegree (writeDegree e s i v) s i = v := by
  unfold readDegree writeDegree
  rw [if_pos rfl]
  exact getD_set_self _ _ _ h

lemma resetPhase_nil (e : Env) : resetPhase [] e = e := rfl

lemma resetPhase_cons (r : FuzzyRule) (rs : List FuzzyRule) (e : Env) :
    resetPhase (r :: rs) e
      = resetPhase rs (writeDegree e r.consequent.var r.consequent.value 0) := rfl

lemma aggregatePhase_nil (e : Env) : aggregatePhase [] e = e := rfl

lemma aggregatePhase_cons (r : FuzzyRule) (rs : List FuzzyRule) (e : Env) :
    aggregatePhase (r :: rs) e
      = aggregatePhase rs (writeDegree e r.consequent.var r.consequent.value
          (max (readDegree e r.consequent.var r.consequent.value) (ruleMembership e r))) := rfl

lemma aggregate_two_rules (rx ry : FuzzyRule) (env : Env) (cs ci : Nat)
    (hxv : rx.consequent.var = cs) (hxi : rx.consequent.value = ci)
    (hyv : ry.consequent.var = cs) (hyi : ry.consequent.value = ci)
    (hci : ci < (env cs).length)
    (hrx : referencesSet rx cs = false) (hry : referencesSet ry cs = false) :
    readDegree (aggregatePhase [rx, ry] (resetPhase [rx, ry] env)) cs ci
      = max (max 0 (ruleMembership env rx)) (ruleMembership env ry) := by
  rw [resetPhase_cons, resetPhase_cons, resetPhase_nil, hxv, hxi, hyv, hyi]
  set e0 : Env := writeDegree (writeDegree env cs ci 0) cs ci 0 with he0
  have hoff0 : ∀ t, t ≠ cs → e0 t = env t := by
    intro t ht
    rw [he0, writeDegree_ne _ _ _ _ _ ht, writeDegree_ne _ _ _ _ _ ht]
  have hlen1 : ci < ((writeDegree env cs ci 0) cs).length := by
    rw [writeDegree_self, List.length_set]
    exact hci
  have hlen0 : ci < (e0 cs).length := by
    rw [he0, writeDegree_self, List.length_set]
    exact hlen1
  have hread0 : readDegree e0 cs ci = 0 := by
    rw [he0]
    exact readDegree_writeDegree _ _ _ _ hlen1
  have hmx : ruleMembership e0 rx = ruleMembership env rx :=
    ruleMembership_congr _ _ _ _ hoff0 hrx
  rw [aggregatePhase_cons, hxv, hxi, hread0, hmx]
  set e1 : Env := writeDegree e0 cs ci (max 0 (ruleMembership env rx)) with he1
  have hoff1 : ∀ t, t ≠ cs → e1 t = env t := by
    intro t ht
    rw [he1, writeDegree_ne _ _ _ _ _ ht]
    exact hoff0 t ht
  have hlen1' : ci < (e1 cs).length := by
    rw [he1, writeDegree_self, List.length_set]
    exact hlen0
  have hread1 : readDegree e1 cs ci = max 0 (ruleMembership env rx) := by
    rw [he1]
    exact readDegree_writeDegree _ _ _ _ hlen0
  have hmy : ruleMembership e1 ry = ruleMembership env ry :=
    ruleMembership_congr _ _ _ _ hoff1 hry
  rw [aggregatePhase_cons, aggregatePhase_nil, hyv, hyi, hread1, hmy]
  exact readDegree_writeDegree _ _ _ _ hlen1'

/-- Claim C4's counterexample: two rules with the same consequent slot (1,0)
and firing strengths 0.4 and 0.7 in `envAB`; after `fuzzyInference` the slot
holds 1, not 0.7, because the final unconditional normalization divides the
aggregated 0.7 by the degree sum 0.7. -/
theorem claim_C4_counterexample :
    ruleMembership envAB ruleA = 2/5 ∧ ruleMembership envAB ruleB = 7/10 ∧
    ruleA.consequent = ruleB.consequent ∧
    readDegree (fuzzyInference [ruleA, ruleB] envAB) 1 0 = 1 ∧ (1 : ℚ) ≠ 7/10 := by
  refine ⟨?_, ?_, rfl, ?_, by norm_num⟩
  · norm_num [ruleMembership, groupMembership, inputMembership, readDegree, envAB,
      ruleA, min_def]
  · norm_num [ruleMembership, groupMembership, inputMembership, readDegree, envAB,
      ruleB, min_def]
  · norm_num [fuzzyInference, normalizePhase, aggregatePhase, resetPhase, writeDegree,
      writeSet, readDegree, ruleMembership, groupMembership, inputMembership,
      normalizeClass, envAB, ruleA, ruleB, min_def, max_def]

/-- Claim C4 (amended): with firing strengths 0.4 and 0.7 the max-aggregation
phase leaves the shared consequent slot at 0.7 for both orderings of the two
rules; only the final per-set normalization step inside `fuzzyInference`
changes the stored value afterwards (dividing it by the set's degree sum). -/
theorem claim_C4 (rx ry : FuzzyRule) (env : Env) (cs ci : Nat)
    (hxv : rx.consequent.var = cs) (hxi : rx.consequent.value = ci)
    (hyv : ry.consequent.var = cs) (hyi : ry.consequent.value = ci)
    (hci : ci < (env cs).length)
    (hrx : referencesSet rx cs = false) (hry : referencesSet ry cs = false)
    (hsx : ruleMembership env rx = 2/5) (hsy : ruleMembership env ry = 7/10) :
    readDegree (aggregatePhase [rx, ry] (resetPhase [rx, ry] env)) cs ci = 7/10 ∧
    readDegree (aggregatePhase [ry, rx] (resetPhase [ry, rx] env)) cs ci = 7/10 := by
  constructor
  · rw [aggregate_two_rules rx ry env cs ci hxv hxi hyv hyi hci hrx hry, hsx, hsy]
    norm_num [max_def]
  · rw [aggregate_two_rules ry rx env cs ci hyv hyi hxv hxi hci hry hrx, hsx, hsy]
    norm_num [max_def]

/-- Claim C4's witness: the amended statement at the concrete rules `ruleA`,
`ruleB` over `envAB`. -/
theorem claim_C4_witness :
    (ruleA.consequent.var = 1 ∧ ruleA.consequent.value = 0 ∧
      ruleB.consequent.var = 1 ∧ ruleB.consequent.value = 0 ∧
      0 < (envAB 1).length ∧
      referencesSet ruleA 1 = false ∧ referencesSet ruleB 1 = false ∧
      ruleMembership envAB ruleA = 2/5 ∧ ruleMembership envAB ruleB = 7/10) ∧
    (readDegree (aggregatePhase [ruleA, ruleB] (resetPhase [ruleA, ruleB] envAB)) 1 0 = 7/10 ∧
      readDegree (aggregatePhase [ruleB, ruleA] (resetPhase [ruleB, ruleA] envAB)) 1 0 = 7/10) := by
  have h1 : ruleMembership envAB ruleA = 2/5 := by
    norm_num [ruleMembership, groupMembership, inputMembership, readDegree, envAB,
      ruleA, min_def]
  have h2 : ruleMembership envAB ruleB = 7/10 := by
    norm_num [ruleMembership, groupMembership, inputMembership, readDegree, envAB,
      ruleB, min_def]
  have hlen : 0 < (envAB 1).length := by simp [envAB]
  exact ⟨⟨rfl, rfl, rfl, rfl, hlen, rfl, rfl, h1, h2⟩,
    claim_C4 ruleA ruleB envAB 1 0 rfl rfl rfl rfl hlen rfl rfl h1 h2⟩

lemma membershipFunction_range (x : ℚ) (mf : MembershipFunction) :
    0 ≤ membershipFunction x mf ∧ membershipFunction x mf ≤ 1 := by
  obtain ⟨a, b, c, d, t⟩ := mf
  cases t with
  | TRIANGULAR =>
    simp only [membershipFunction, triangularMembershipFunction]
    split_ifs with h1 h2 h3
    · norm_num
    · norm_num
    · push_neg at h1
      obtain ⟨hax, hxc⟩ := h1
      have hab : a < b :=
        lt_of_le_of_ne (le_trans hax h2) (Ne.symm (sub_ne_zero.mp h3))
      constructor
      · exact div_nonneg (sub_nonneg.mpr hax) (le_of_lt (sub_pos.mpr hab))
      · rw [div_le_one (sub_pos.mpr hab)]
        linarith
    · push_neg at h1
      obtain ⟨hax, hxc⟩ := h1
      have hbx : b < x := not_le.mp h2
      have hbc : b < c := lt_of_lt_of_le hbx hxc
      constructor
      · exact div_nonneg (sub_nonneg.mpr hxc) (le_of_lt (sub_pos.mpr hbc))
      · rw [div_le_one (sub_pos.mpr hbc)]
        linarith
  | TRAPEZOIDAL =>
    simp only [membershipFunction, trapezoidalMembershipFunction]
    split_ifs with h1 h2 h3
    · norm_num
    · push_neg at h1
      obtain ⟨hax, hxd⟩ := h1
      have hab : a < b := lt_of_lt_of_le hax h2
      constructor
      · exact div_nonneg (le_of_lt (sub_pos.mpr hax)) (le_of_lt (sub_pos.mpr hab))
      · rw [div_le_one (sub_pos.mpr hab)]
        linarith
    · push_neg at h1
      obtain ⟨hax, hxd⟩ := h1
      have hcd : c < d := lt_of_le_of_lt h3 hxd
      constructor
      · exact div_nonneg (le_of_lt (sub_pos.mpr hxd)) (le_of_lt (sub_pos.mpr hcd))
      · rw [div_le_one (sub_pos.mpr hcd)]
        linarith
    · norm_num
  | RECTANGULAR =>
    simp only [membershipFunction, rectangularMembershipFunction]
    split_ifs <;> norm_num

lemma readDegree_range (e : Env) (he : envInRange e) (s i : Nat) :
    0 ≤ readDegree e s i ∧ readDegree e s i ≤ 1 := by
  by_cases h : i < (e s).length
  · rw [readDegree, List.getD_eq_getElem _ _ h]
    exact he s _ (List.getElem_mem h)
  · rw [readDegree, List.getD_eq_default _ _ (le_of_not_lt h)]
    norm_num

lemma inputMembership_range (e : Env) (he : envInRange e) (v : FuzzyVariable) :
    0 ≤ inputMembership e v ∧ inputMembership e v ≤ 1 := by
  obtain ⟨h0, h1⟩ := readDegree_range e he v.var v.value
  simp only [inputMembership]
  cases hv : v.invert
  · simp only [hv, Bool.false_eq_true, if_false]
    exact ⟨h0, h1⟩
  · simp only [hv, if_true]
    constructor <;> linarith

lemma foldl_max_range {α : Type} (l : List α) (f : α → ℚ) (acc : ℚ)
    (hacc : 0 ≤ acc ∧ acc ≤ 1) (hf : ∀ v ∈ l, 0 ≤ f v ∧ f v ≤ 1) :
    0 ≤ l.foldl (fun m v => max m (f v)) acc ∧
      l.foldl (fun m v => max m (f v)) acc ≤ 1 := by
  induction l generalizing acc with
  | nil => simpa using hacc
  | cons x l ih =>
    rw [List.foldl_cons]
    refine ih _ ⟨?_, ?_⟩ (fun v hv => hf v (List.mem_cons_of_mem x hv))
    · exact le_max_of_le_left hacc.1
    · exact max_le hacc.2 (hf x (List.mem_cons_self x l)).2

lemma foldl_min_range {α : Type} (l : List α) (f : α → ℚ) (acc : ℚ)
    (hacc : 0 ≤ acc ∧ acc ≤ 1) (hf : ∀ v ∈ l, 0 ≤ f v ∧ f v ≤ 1) :
    0 ≤ l.foldl (fun m v => min m (f v)) acc ∧
      l.foldl (fun m v => min m (f v)) acc ≤ 1 := by
  induction l generalizing acc with
  | nil => simpa using hacc
  | cons x l ih =>
    rw [List.foldl_cons]
    refine ih _ ⟨?_, ?_⟩ (fun v hv => hf v (List.mem_cons_of_mem x hv))
    · exact le_min hacc.1 (hf x (List.mem_cons_self x l)).1
    · exact min_le_of_left_le hacc.2

lemma groupMembership_range (e : Env) (he : envInRange e) (a : FuzzyAntecedent) :
    0 ≤ groupMembership e a ∧ groupMembership e a ≤ 1 := by
  obtain ⟨op, vs⟩ := a
  cases op
  · exact foldl_max_range vs _ 0 (by norm_num) (fun v _ => inputMembership_range e he v)
  · exact foldl_min_range vs _ 1 (by norm_num) (fun v _ => inputMembership_range e he v)

lemma ruleMembership_range (e : Env) (he : envInRange e) (r : FuzzyRule) :
    0 ≤ ruleMembership e r ∧ ruleMembership e r ≤ 1 :=
  foldl_min_range _ _ 1 (by norm_num) (fun a _ => groupMembership_range e he a)

lemma envInRange_writeDegree (e : Env) (he : envInRange e) (s i : Nat) (v : ℚ)
    (hv : 0 ≤ v ∧ v ≤ 1) : envInRange (writeDegree e s i v) := by
  intro t w hw
  by_cases ht : t = s
  · subst ht
    rw [writeDegree_self] at hw
    rcases List.mem_or_eq_of_mem_set hw with h | h
    · exact he t w h
    · cases h
      exact hv
  · rw [writeDegree_ne _ _ _ _ _ ht] at hw
    exact he t w hw

lemma envInRange_foldl (l : List FuzzyRule) (f : Env → FuzzyRule → Env)
    (hstep : ∀ e r, envInRange e → envInRange (f e r)) :
    ∀ e, envInRange e → envInRange (l.foldl f e) := by
  induction l with
  | nil => intro e he; simpa using he
  | cons r l ih =>
    intro e he
    rw [List.foldl_cons]
    exact ih _ (hstep e r he)

/-- Claim C7: membership evaluation always returns a degree in `[0,1]`, for
every input and every shape; and whenever every degree stored in the heap is
in `[0,1]`, the reset-and-aggregation phase of `fuzzyInference` keeps every
stored degree (in particular every value it writes) in `[0,1]`. -/
theorem claim_C7 :
    (∀ (x : ℚ) (mf : MembershipFunction),
      0 ≤ membershipFunction x mf ∧ membershipFunction x mf ≤ 1) ∧
    (∀ (rules : List FuzzyRule) (env : Env), envInRange env →
      envInRange (aggregatePhase rules (resetPhase rules env))) := by
  refine ⟨membershipFunction_range, fun rules env he => ?_⟩
  have h0 : envInRange (resetPhase rules env) := by
    refine envInRange_foldl rules _ (fun e r he' => ?_) env he
    exact envInRange_writeDegree e he' _ _ 0 (by norm_num)
  refine envInRange_foldl rules _ (fun e r he' => ?_) _ h0
  refine envInRange_writeDegree e he' _ _ _ ⟨?_, ?_⟩
  · exact le_max_of_le_left (readDegree_range e he' _ _).1
  · exact max_le (readDegree_range e he' _ _).2 (ruleMembership_range e he' r).2

/-- Claim C7's witness: the range statement at `x = 20` over the scenario-A
Low shape, and the aggregation-range statement over `envAB` and the two-rule
list. -/
theorem claim_C7_witness :
    envInRange envAB ∧
    (0 ≤ membershipFunction 20 ⟨0, 0, 15, 40, .TRAPEZOIDAL⟩ ∧
      membershipFunction 20 ⟨0, 0, 15, 40, .TRAPEZOIDAL⟩ ≤ 1) ∧
    envInRange (aggregatePhase [ruleA, ruleB] (resetPhase [ruleA, ruleB] envAB)) := by
  have he : envInRange envAB := by
    intro s v hv
    by_cases hs : s = 0
    · simp [envAB, hs] at hv
      rcases hv with h | h <;> subst h <;> norm_num
    · simp [envAB, hs] at hv
      subst hv
      norm_num
  exact ⟨he, claim_C7.1 20 _, claim_C7.2 [ruleA, ruleB] envAB he⟩

lemma normalizeClass_normalized (ms : List ℚ) :
    (normalizeClass ms).sum = 1 ∨ ∀ v ∈ normalizeClass ms, v = 0 := by
  by_cases h : ms.sum = 0
  · right
    intro v hv
    unfold normalizeClass at hv
    rw [if_pos h] at hv
    obtain ⟨w, hw, hv'⟩ := List.mem_map.mp hv
    exact hv'.symm
  · left
    unfold normalizeClass
    rw [if_neg h, sum_map_div, div_self h]

lemma writeSet_ne (e : Env) (s : Nat) (ms : List ℚ) (t : Nat) (ht : t ≠ s) :
    writeSet e s ms t = e t := by
  simp [writeSet, ht]

lemma writeSet_self (e : Env) (s : Nat) (ms : List ℚ) : writeSet e s ms s = ms := by
  simp [writeSet]

lemma normalizePhase_nil (e : Env) : normalizePhase [] e = e := rfl

lemma normalizePhase_cons (r : FuzzyRule) (rs : List FuzzyRule) (e : Env) :
    normalizePhase (r :: rs) e
      = normalizePhase rs
          (writeSet e r.consequent.var (normalizeClass (e r.consequent.var))) := rfl

lemma normalizePhase_preserves (rules : List FuzzyRule) (e : Env) (s : Nat)
    (h : ((e s).sum = 1 ∨ ∀ v ∈ e s, v = 0)) :
    ((normalizePhase rules e) s).sum = 1 ∨ ∀ v ∈ (normalizePhase rules e) s, v = 0 := by
  induction rules generalizing e with
  | nil => rw [normalizePhase_nil]; exact h
  | cons r rs ih =>
    rw [normalizePhase_cons]
    refine ih _ ?_
    by_cases ht : s = r.consequent.var
    · subst ht
      rw [writeSet_self]
      exact normalizeClass_normalized _
    · rw [writeSet_ne _ _ _ _ ht]
      exact h

lemma normalizePhase_establishes (rules : List FuzzyRule) (e : Env) (r : FuzzyRule)
    (hr : r ∈ rules) :
    ((normalizePhase rules e) r.consequent.var).sum = 1 ∨
      ∀ v ∈ (normalizePhase rules e) r.consequent.var, v = 0 := by
  induction rules generalizing e with
  | nil => simp at hr
  | cons r0 rs ih =>
    rw [normalizePhase_cons]
    rcases List.mem_cons.mp hr with h | h
    · subst h
      refine normalizePhase_preserves rs _ _ ?_
      rw [writeSet_self]
      exact normalizeClass_normalized _
    · exact ih _ h

/-- Claim C10: after `fuzzyInference` returns, every set that is the
consequent of at least one rule has been normalized unconditionally: its
degrees (all slots, targeted or not) sum to 1, or are all exactly 0. -/
theorem claim_C10 (rules : List FuzzyRule) (env : Env) (r : FuzzyRule)
    (hr : r ∈ rules) :
    ((fuzzyInference rules env) r.consequent.var).sum = 1 ∨
      ∀ v ∈ (fuzzyInference rules env) r.consequent.var, v = 0 :=
  normalizePhase_establishes rules _ r hr

/-- Claim C10's witness: the statement at the two-rule list over `envAB`. -/
theorem claim_C10_witness :
    ruleA ∈ [ruleA, ruleB] ∧
    (((fuzzyInference [ruleA, ruleB] envAB) ruleA.consequent.var).sum = 1 ∨
      ∀ v ∈ (fuzzyInference [ruleA, ruleB] envAB) ruleA.consequent.var, v = 0) :=
  ⟨List.mem_cons_self _ _,
    claim_C10 [ruleA, ruleB] envAB ruleA (List.mem_cons_self _ _)⟩

end FuzzyC
